import Mathlib

/-!
# Verification of the Minesweeper knowledge-base inference engine

Shallow embedding of `minesweeper.py` (classes `Minesweeper`, `Sentence`,
`MinesweeperAI`).  Python sets of `(row, col)` tuples become `Finset (ℕ × ℕ)`,
Python ints become `ℤ` where they can go negative (sentence counts) and `ℕ`
for coordinates and dimensions.  The mutable `self.knowledge` list of
`Sentence` objects becomes a list of entries carrying a unique object id
(`eid`), so that Python's identity test `sentence1 is sentence2` and value
test `sentence1 == sentence2` (`Sentence.__eq__`: equal cell sets and equal
counts) are both expressible.  Loops of `add_knowledge` that iterate over the
mutating `self.knowledge` list are embedded index-by-index exactly as CPython's
list iterator behaves (the iterator reads the element at its current index of
the live list and then advances, so removals shift later elements under it and
appends extend the iteration); the two loops that can grow the list take a
fuel parameter and return `none` when the fuel is exhausted.
-/

set_option autoImplicit false

namespace Minesweeper

/-- A board cell `(row, col)`, Python's `(i, j)` tuple. -/
abbrev Cell := ℕ × ℕ

/-- The value of a `Sentence` object: `self.cells` and `self.count`.
`Sentence.__eq__` compares exactly this pair. -/
structure SVal where
  cells : Finset Cell
  count : ℤ

instance : DecidableEq SVal := fun a b =>
  decidable_of_iff (a.cells = b.cells ∧ a.count = b.count)
    (by cases a; cases b; simp [SVal.mk.injEq])

/-- One entry of the `self.knowledge` list: a `Sentence` object.  `eid` is the
object identity (each `Sentence(...)` construction yields a fresh id), used to
embed Python's `sentence1 is sentence2`. -/
structure KEntry where
  eid : ℕ
  val : SVal

instance : DecidableEq KEntry := fun a b =>
  decidable_of_iff (a.eid = b.eid ∧ a.val = b.val)
    (by cases a; cases b; simp [KEntry.mk.injEq])

/-- The state of a `MinesweeperAI` instance.  `nextId` is the next fresh
object id for a newly constructed `Sentence`. -/
structure AIState where
  height : ℕ
  width : ℕ
  moves_made : Finset Cell
  mines : Finset Cell
  safes : Finset Cell
  knowledge : List KEntry
  nextId : ℕ

instance : DecidableEq AIState := fun a b =>
  decidable_of_iff (a.height = b.height ∧ a.width = b.width ∧ a.moves_made = b.moves_made ∧
      a.mines = b.mines ∧ a.safes = b.safes ∧ a.knowledge = b.knowledge ∧ a.nextId = b.nextId)
    (by cases a; cases b; simp [AIState.mk.injEq])

/-- Equality tests on results, written without any value-position `Eq.rec`
so that concrete runs evaluate by reduction. -/
instance : DecidableEq (Option AIState) := fun a b =>
  match a, b with
  | none, none => isTrue rfl
  | none, some _ => isFalse (fun h => Option.noConfusion h)
  | some _, none => isFalse (fun h => Option.noConfusion h)
  | some x, some y => decidable_of_iff (x = y) (by simp)

instance : DecidableEq (List KEntry × ℕ) := fun a b =>
  decidable_of_iff (a.1 = b.1 ∧ a.2 = b.2) (by cases a; cases b; simp)

instance : DecidableEq (Option (List KEntry × ℕ)) := fun a b =>
  match a, b with
  | none, none => isTrue rfl
  | none, some _ => isFalse (fun h => Option.noConfusion h)
  | some _, none => isFalse (fun h => Option.noConfusion h)
  | some x, some y => decidable_of_iff (x = y) (by simp)

/-- `MinesweeperAI.__init__(height, width)`. -/
def initAI (height width : ℕ) : AIState :=
  ⟨height, width, ∅, ∅, ∅, [], 0⟩

/-- The ground-truth game: `Minesweeper` with its fixed mine set
(`self.board[i][j]` is true iff `(i, j) ∈ gmines`). -/
structure Grid where
  height : ℕ
  width : ℕ
  gmines : Finset Cell

/-- `Minesweeper.is_mine(cell)`. -/
def is_mine (g : Grid) (cell : Cell) : Prop := cell ∈ g.gmines

/-- The in-bounds cells within one row and one column of `cell`, excluding
`cell` itself: the `(i, j)` pairs visited by the loops of
`Minesweeper.nearby_mines` that pass its bounds check.  Python's
`range(cell[0]-1, cell[0]+2)` includes `-1` when `cell[0] = 0`, but the
`0 <= i` check discards it, which coincides with ℕ truncated subtraction. -/
def nbhd (height width : ℕ) (cell : Cell) : Finset Cell :=
  ((Finset.Icc (cell.1 - 1) (cell.1 + 1)) ×ˢ (Finset.Icc (cell.2 - 1) (cell.2 + 1))).filter
    (fun p => p ≠ cell ∧ p.1 < height ∧ p.2 < width)

/-- `Minesweeper.nearby_mines(cell)`: the number of in-bounds neighbours of
`cell` (excluding `cell` itself) that are mines. -/
def nearby_mines (g : Grid) (cell : Cell) : ℕ :=
  ((nbhd g.height g.width cell).filter (fun p => p ∈ g.gmines)).card

/-- `Sentence.known_mines(self)`. -/
def known_mines (s : SVal) : Finset Cell :=
  if s.count = (s.cells.card : ℤ) ∧ s.count > 0 then s.cells else ∅

/-- `Sentence.known_safes(self)`. -/
def known_safes (s : SVal) : Finset Cell :=
  if s.count = 0 then s.cells else ∅

/-- `Sentence.mark_mine(self, cell)`.  The source reads:
`if cell not in self.cells: self.count += 1; self.cells.add(cell)` —
it adds the missing cell and increments the count, and leaves a sentence
already containing the cell unchanged. -/
def sentence_mark_mine (s : SVal) (cell : Cell) : SVal :=
  if cell ∉ s.cells then ⟨insert cell s.cells, s.count + 1⟩ else s

/-- `Sentence.mark_safe(self, cell)`:
`if cell in self.cells: self.cells.remove(cell)`, i.e. erase, count kept. -/
def sentence_mark_safe (s : SVal) (cell : Cell) : SVal :=
  ⟨s.cells.erase cell, s.count⟩

/-- `MinesweeperAI.mark_mine(self, cell)`: add to `self.mines` and update
every sentence of `self.knowledge`. -/
def ai_mark_mine (st : AIState) (cell : Cell) : AIState :=
  { st with mines := insert cell st.mines,
            knowledge := st.knowledge.map (fun e => ⟨e.eid, sentence_mark_mine e.val cell⟩) }

/-- `MinesweeperAI.mark_safe(self, cell)`: add to `self.safes` and update
every sentence of `self.knowledge`. -/
def ai_mark_safe (st : AIState) (cell : Cell) : AIState :=
  { st with safes := insert cell st.safes,
            knowledge := st.knowledge.map (fun e => ⟨e.eid, sentence_mark_safe e.val cell⟩) }

/-- `MinesweeperAI.get_surrounding_cells(self, cell)`: the cells of the
clamped 3×3 box around `cell`, except `cell` itself and cells already in
`self.safes`.  (For `height = width = 0` the Python ranges are empty while
this ℕ version is not; every grid in the source is constructed with positive
dimensions.) -/
def get_surrounding_cells (st : AIState) (cell : Cell) : Finset Cell :=
  let row := cell.1
  let col := cell.2
  let row1 := if row > 0 then row - 1 else 0
  let row2 := if row < st.height - 1 then row + 1 else st.height - 1
  let col1 := if col > 0 then col - 1 else 0
  let col2 := if col < st.width - 1 then col + 1 else st.width - 1
  ((Finset.Icc row1 row2) ×ˢ (Finset.Icc col1 col2)).filter
    (fun p => p ≠ cell ∧ p ∉ st.safes)

/-- Lexicographic order on cells, used to enumerate a Python set.  CPython's
set-iteration order is unspecified; all the set iterations below are either
order-independent (marking loops commute) or an arbitrary choice (`set.pop`),
so a fixed enumeration order is a faithful embedding. -/
def cellR (a b : Cell) : Prop :=
  a.1 < b.1 ∨ (a.1 = b.1 ∧ a.2 ≤ b.2)

instance : DecidableRel cellR := fun a b => by unfold cellR; infer_instance

/-- Minimum of two optional cells in the `cellR` order. -/
def ominCell (a b : Option Cell) : Option Cell :=
  match a with
  | none => b
  | some x =>
    match b with
    | none => some x
    | some y => if cellR x y then some x else some y

instance : Std.Commutative ominCell := by
  refine ⟨fun a b => ?_⟩
  rcases a with _ | x
  · rcases b with _ | y <;> rfl
  rcases b with _ | y
  · rfl
  show (if cellR x y then some x else some y) = (if cellR y x then some y else some x)
  split_ifs <;> simp only [Option.some.injEq, Prod.ext_iff] <;> unfold cellR at * <;> omega

instance : Std.Associative ominCell := by
  refine ⟨fun a b c => ?_⟩
  rcases a with _ | x
  · rfl
  rcases b with _ | y
  · rfl
  rcases c with _ | z
  · show ominCell (if cellR x y then some x else some y) none =
      ominCell (some x) (ominCell (some y) none)
    by_cases hxy : cellR x y <;> simp only [ominCell, hxy, if_true, if_false]
  show ominCell (if cellR x y then some x else some y) (some z) =
    ominCell (some x) (if cellR y z then some y else some z)
  by_cases hxy : cellR x y <;> by_cases hyz : cellR y z <;> by_cases hxz : cellR x z <;>
    simp only [ominCell, hxy, hyz, hxz, if_true, if_false] <;>
    simp only [Option.some.injEq, Prod.ext_iff] <;> unfold cellR at * <;> omega

/-- An arbitrary (the `cellR`-least) element of a finite set of cells, or
`none` when it is empty: the embedding of Python's `set.pop()` choice. -/
def popCell (s : Finset Cell) : Option Cell :=
  s.fold ominCell none some

/-- Enumerate a finite set of cells by repeatedly extracting `popCell`;
`fuel` is instantiated with the set's size. -/
def cellsToListAux : ℕ → Finset Cell → List Cell
  | 0, _ => []
  | fuel + 1, s =>
    match popCell s with
    | none => []
    | some c => c :: cellsToListAux fuel (s.erase c)

/-- Computable (kernel-reducible) enumeration of a finite set of cells. -/
def cellSort (s : Finset Cell) : List Cell :=
  cellsToListAux s.card s

theorem popCell_mem {s : Finset Cell} {c : Cell} (h : popCell s = some c) : c ∈ s := by
  induction s using Finset.induction_on with
  | empty => simp [popCell] at h
  | @insert a s ha ih =>
    rw [popCell, Finset.fold_insert ha] at h
    rcases hp : (s.fold ominCell none some) with _ | b
    · rw [hp] at h
      simp only [ominCell, Option.some.injEq] at h
      subst h
      exact Finset.mem_insert_self _ _
    · rw [hp] at h
      simp only [ominCell] at h
      split at h
      · rcases Option.some.inj h with rfl
        exact Finset.mem_insert_self _ _
      · rcases Option.some.inj h with rfl
        exact Finset.mem_insert_of_mem (ih hp)

theorem popCell_eq_none {s : Finset Cell} : popCell s = none ↔ s = ∅ := by
  induction s using Finset.induction_on with
  | empty => simp [popCell]
  | @insert a s ha ih =>
    rw [popCell, Finset.fold_insert ha]
    constructor
    · intro h
      rcases hp : (s.fold ominCell none some) with _ | b <;> rw [hp] at h <;>
        simp only [ominCell] at h
      · exact absurd h (by simp)
      · split at h <;> exact absurd h (by simp)
    · intro h
      exact absurd h (Finset.insert_ne_empty _ _)

theorem cellsToListAux_subset :
    ∀ (fuel : ℕ) (s : Finset Cell) (c : Cell), c ∈ cellsToListAux fuel s → c ∈ s := by
  intro fuel
  induction fuel with
  | zero => intro s c h; simp [cellsToListAux] at h
  | succ fuel ih =>
    intro s c h
    unfold cellsToListAux at h
    split at h
    · simp at h
    · next a hp =>
      rcases List.mem_cons.mp h with rfl | h
      · exact popCell_mem hp
      · exact Finset.mem_of_mem_erase (ih _ c h)

theorem cellSort_subset {s : Finset Cell} {c : Cell} (h : c ∈ cellSort s) : c ∈ s :=
  cellsToListAux_subset _ s c h

theorem cellSort_eq_nil {s : Finset Cell} : cellSort s = [] ↔ s = ∅ := by
  constructor
  · intro h
    by_contra hne
    have hcard : s.card ≠ 0 := fun h0 => hne (Finset.card_eq_zero.mp h0)
    rcases hc : s.card with _ | k
    · exact hcard hc
    · unfold cellSort at h
      rw [hc] at h
      unfold cellsToListAux at h
      split at h
      · next hp => exact hne (popCell_eq_none.mp hp)
      · exact absurd h (by simp)
  · intro h
    subst h
    rfl

/-- Fold of `MinesweeperAI.mark_mine` over a list of cells (an inner
`for cell1 in ...: self.mark_mine(cell1)` loop; the marks for distinct cells
commute, so the set-iteration order is immaterial). -/
def foldMarkMine (st : AIState) (cs : List Cell) : AIState :=
  cs.foldl ai_mark_mine st

/-- Fold of `MinesweeperAI.mark_safe` over a list of cells. -/
def foldMarkSafe (st : AIState) (cs : List Cell) : AIState :=
  cs.foldl ai_mark_safe st

/-- One pass of
`for sentence in self.knowledge: for cell1 in sentence.known_mines().copy(): self.mark_mine(cell1)`
starting at list index `i`.  Marking never adds or removes list entries, so
the list length is fixed and `steps = length` covers the whole list. -/
def markMinesAux : ℕ → AIState → ℕ → AIState
  | 0, st, _ => st
  | steps + 1, st, i =>
    if h : i < st.knowledge.length then
      markMinesAux steps (foldMarkMine st (cellSort (known_mines (st.knowledge.get ⟨i, h⟩).val))) (i + 1)
    else st

/-- The full `known_mines` marking loop (lines 293–295 and 321–323). -/
def markMinesPass (st : AIState) : AIState :=
  markMinesAux st.knowledge.length st 0

/-- One pass of
`for sentence in self.knowledge: for cell1 in sentence.known_safes().copy(): self.mark_safe(cell1)`
starting at list index `i`. -/
def markSafesAux : ℕ → AIState → ℕ → AIState
  | 0, st, _ => st
  | steps + 1, st, i =>
    if h : i < st.knowledge.length then
      markSafesAux steps (foldMarkSafe st (cellSort (known_safes (st.knowledge.get ⟨i, h⟩).val))) (i + 1)
    else st

/-- The full `known_safes` marking loop (lines 297–299 and 325–327). -/
def markSafesPass (st : AIState) : AIState :=
  markSafesAux st.knowledge.length st 0

/-- Python's `list.remove(x)`: delete the first element equal (`__eq__`,
i.e. equal `SVal`) to `v`. -/
def removeFirstVal (v : SVal) : List KEntry → List KEntry
  | [] => []
  | e :: rest => if e.val = v then rest else e :: removeFirstVal v rest

/-- The inner loop `for sentence2 in self.knowledge:` of the
subset-inference pass (lines 310–319), iterating the live list from index
`j` with outer sentence `s1` (captured by reference; its value cannot change
during the pass).  `n` is the next fresh `Sentence` id.  The loop body may
remove (duplicate collapse) or append (derived sentence) entries; the
iterator mechanics over the mutating list follow CPython.  Returns `none`
when out of fuel. -/
def innerLoop (s1 : KEntry) : ℕ → List KEntry → ℕ → ℕ → Option (List KEntry × ℕ)
  | 0, _, _, _ => none
  | fuel + 1, K, n, j =>
    if h : j < K.length then
      let s2 := K.get ⟨j, h⟩
      if s2.eid = s1.eid then
        innerLoop s1 fuel K n (j + 1)
      else if s2.val = s1.val then
        innerLoop s1 fuel (removeFirstVal s2.val K) n (j + 1)
      else if s1.val.cells ⊆ s2.val.cells then
        let nv : SVal := ⟨s2.val.cells \ s1.val.cells, s2.val.count - s1.val.count⟩
        if K.any (fun e => e.val = nv) then innerLoop s1 fuel K n (j + 1)
        else innerLoop s1 fuel (K ++ [⟨n, nv⟩]) (n + 1) (j + 1)
      else innerLoop s1 fuel K n (j + 1)
    else some (K, n)

/-- The outer loop `for sentence1 in self.knowledge:` of the subset-inference
pass (line 309), iterating the live list from index `i`. -/
def outerLoop : ℕ → List KEntry → ℕ → ℕ → Option (List KEntry × ℕ)
  | 0, _, _, _ => none
  | fuel + 1, K, n, i =>
    if h : i < K.length then
      match innerLoop (K.get ⟨i, h⟩) fuel K n 0 with
      | none => none
      | some (K', n') => outerLoop fuel K' n' (i + 1)
    else some (K, n)

/-- Steps 1–3 of `add_knowledge`: record the move, mark the probed cell safe,
and append the new sentence `Sentence(surrounding_cells, count)` —
unconditionally, whatever `surrounding_cells` is.  `surrounding_cells` is
computed first (line 283), before the cell is marked safe. -/
def add_sentence_phase (st : AIState) (cell : Cell) (count : ℤ) : AIState :=
  let surrounding := get_surrounding_cells st cell
  let st1 := { st with moves_made := insert cell st.moves_made }
  let st2 := ai_mark_safe st1 cell
  { st2 with knowledge := st2.knowledge ++ [⟨st2.nextId, ⟨surrounding, count⟩⟩],
             nextId := st2.nextId + 1 }

/-- Everything `add_knowledge` does before the subset-inference pass:
steps 1–3 (`add_sentence_phase`), the two marking loops (lines 293–299),
and the `count == 0` special case marking all of `surrounding_cells` safe
(lines 302–304). -/
def pre_pass_state (st : AIState) (cell : Cell) (count : ℤ) : AIState :=
  let st5 := markSafesPass (markMinesPass (add_sentence_phase st cell count))
  if count = 0 then foldMarkSafe st5 (cellSort (get_surrounding_cells st cell)) else st5

/-- The two marking loops re-run after the subset-inference pass
(lines 321–327), on the pass's resulting sentence list `K` and id counter
`n`. -/
def post_pass_state (st6 : AIState) (K : List KEntry) (n : ℕ) : AIState :=
  markSafesPass (markMinesPass { st6 with knowledge := K, nextId := n })

/-- `MinesweeperAI.add_knowledge(self, cell, count)` in full: steps 1–3
(`add_sentence_phase`), the two marking loops, the `count == 0` special case
marking all of `surrounding_cells` safe, the subset-inference pass, and the
two final marking loops.  `none` means the fuel bound did not suffice for the
subset-inference pass (the `log_*` calls only print). -/
def add_knowledge (fuel : ℕ) (st : AIState) (cell : Cell) (count : ℤ) : Option AIState :=
  let st6 := pre_pass_state st cell count
  match outerLoop fuel st6.knowledge st6.nextId 0 with
  | none => none
  | some (K, n) => some (post_pass_state st6 K n)

/-- A sequence of `add_knowledge` calls. -/
def runObs (fuel : ℕ) : AIState → List (Cell × ℤ) → Option AIState
  | st, [] => some st
  | st, (c, k) :: rest =>
    match add_knowledge fuel st c k with
    | none => none
    | some st' => runObs fuel st' rest

/-- Re-running the subset-inference pass (lines 309–319) alone on a state. -/
def rerunPass (fuel : ℕ) (st : AIState) : Option (List KEntry × ℕ) :=
  outerLoop fuel st.knowledge st.nextId 0

/-- `MinesweeperAI.make_safe_move(self)`.  Python's `set.pop()` removes an
arbitrary element from the freshly built local set `moves`; it is embedded as
the head of the `Finset` enumeration.  The result is paired with the (always
unchanged) state to express that the query mutates nothing. -/
def make_safe_move (st : AIState) : Option Cell × AIState :=
  let moves := st.safes \ st.moves_made
  (match cellSort moves with
   | [] => none
   | c :: _ => some c, st)

/-- The candidate set built by the loops of `make_random_move`: in-grid cells
not already chosen and not known to be mines. -/
def random_move_candidates (st : AIState) : Finset Cell :=
  ((Finset.range st.height) ×ˢ (Finset.range st.width)).filter
    (fun p => p ∉ st.moves_made ∧ p ∉ st.mines)

/-- `MinesweeperAI.make_random_move(self)`.  The source never consults a
random source: it builds the candidate set with two nested loops and calls
`cells.pop()`, an arbitrary deterministic choice, embedded as the head of the
`Finset` enumeration. -/
def make_random_move (st : AIState) : Option Cell :=
  let cells := random_move_candidates st
  if cells.card = 0 then none
  else
    match cellSort cells with
    | [] => none
    | c :: _ => some c

/-- Truth of a sentence value under ground truth `g`: exactly `count` of
`cells` are mines. -/
def TrueS (g : Grid) (v : SVal) : Prop :=
  v.count = ((v.cells ∩ g.gmines).card : ℤ)

instance (g : Grid) (v : SVal) : Decidable (TrueS g v) := by
  unfold TrueS; infer_instance

/-- Soundness of a whole AI state w.r.t. ground truth `g`: known-safe cells
are not mines, known-mine cells are mines, and every sentence of the
knowledge base is true. -/
def Sound (g : Grid) (st : AIState) : Prop :=
  (∀ c ∈ st.safes, c ∉ g.gmines) ∧
  (∀ c ∈ st.mines, c ∈ g.gmines) ∧
  (∀ e ∈ st.knowledge, TrueS g e.val)

instance (g : Grid) (st : AIState) : Decidable (Sound g st) := by
  unfold Sound; infer_instance

/-- A valid observation fed to `add_knowledge`: an in-bounds, non-mine cell
together with its true nearby-mine count. -/
def ValidObs (g : Grid) (cell : Cell) (count : ℤ) : Prop :=
  cell.1 < g.height ∧ cell.2 < g.width ∧ cell ∉ g.gmines ∧
    count = (nearby_mines g cell : ℤ)

instance (g : Grid) (cell : Cell) (count : ℤ) : Decidable (ValidObs g cell count) := by
  unfold ValidObs; infer_instance

/-! ## Basic lemmas -/

/-- A true sentence's `known_mines` really are mines. -/
theorem known_mines_subset {g : Grid} {v : SVal} (hv : TrueS g v) :
    ∀ c ∈ known_mines v, c ∈ g.gmines := by
  intro c hc
  unfold known_mines at hc
  split at hc
  · next hcond =>
    have hsub : v.cells ∩ g.gmines ⊆ v.cells := Finset.inter_subset_left
    have hcard : v.cells.card ≤ (v.cells ∩ g.gmines).card := by
      have h1 : ((v.cells ∩ g.gmines).card : ℤ) = (v.cells.card : ℤ) := by
        rw [← hv]; exact hcond.1
      omega
    have heq : v.cells ∩ g.gmines = v.cells := Finset.eq_of_subset_of_card_le hsub hcard
    have : c ∈ v.cells ∩ g.gmines := by rw [heq]; exact hc
    exact (Finset.mem_inter.mp this).2
  · exact absurd hc (Finset.not_mem_empty c)

/-- A true sentence with count 0 has no mines among its cells. -/
theorem count_zero_no_mines {g : Grid} {v : SVal} (hv : TrueS g v) (h0 : v.count = 0) :
    ∀ c ∈ v.cells, c ∉ g.gmines := by
  intro c hc hcm
  have hcard : (v.cells ∩ g.gmines).card = 0 := by
    unfold TrueS at hv; omega
  have : v.cells ∩ g.gmines = ∅ := Finset.card_eq_zero.mp hcard
  have hmem : c ∈ v.cells ∩ g.gmines := Finset.mem_inter.mpr ⟨hc, hcm⟩
  simp [this] at hmem

/-- A true sentence's `known_safes` really are not mines. -/
theorem known_safes_not_mine {g : Grid} {v : SVal} (hv : TrueS g v) :
    ∀ c ∈ known_safes v, c ∉ g.gmines := by
  intro c hc
  unfold known_safes at hc
  split at hc
  · next h0 => exact count_zero_no_mines hv h0 c hc
  · exact absurd hc (Finset.not_mem_empty c)

/-- Marking a true non-mine cell safe keeps a sentence true. -/
theorem sentence_mark_safe_true {g : Grid} {v : SVal} {c : Cell}
    (hv : TrueS g v) (hc : c ∉ g.gmines) : TrueS g (sentence_mark_safe v c) := by
  unfold TrueS sentence_mark_safe at *
  have : v.cells.erase c ∩ g.gmines = v.cells ∩ g.gmines := by
    ext x
    simp only [Finset.mem_inter, Finset.mem_erase]
    constructor
    · rintro ⟨⟨_, hx⟩, hm⟩; exact ⟨hx, hm⟩
    · rintro ⟨hx, hm⟩
      exact ⟨⟨fun hxc => hc (hxc ▸ hm), hx⟩, hm⟩
  simpa [this] using hv

/-- Marking a true mine cell keeps a sentence true (the source adds the cell
and increments the count when the cell is absent). -/
theorem sentence_mark_mine_true {g : Grid} {v : SVal} {c : Cell}
    (hv : TrueS g v) (hc : c ∈ g.gmines) : TrueS g (sentence_mark_mine v c) := by
  unfold TrueS sentence_mark_mine at *
  split
  · next hnot =>
    have hins : insert c v.cells ∩ g.gmines = insert c (v.cells ∩ g.gmines) := by
      ext x
      simp only [Finset.mem_inter, Finset.mem_insert]
      constructor
      · rintro ⟨hx | hx, hm⟩
        · exact Or.inl hx
        · exact Or.inr ⟨hx, hm⟩
      · rintro (rfl | ⟨hx, hm⟩)
        · exact ⟨Or.inl rfl, hc⟩
        · exact ⟨Or.inr hx, hm⟩
    have hcnot : c ∉ v.cells ∩ g.gmines := fun h => hnot (Finset.mem_inter.mp h).1
    simp only [hins, Finset.card_insert_of_not_mem hcnot]
    push_cast
    omega
  · exact hv

/-- `MinesweeperAI.mark_safe` preserves soundness when the cell is no mine. -/
theorem ai_mark_safe_sound {g : Grid} {st : AIState} {c : Cell}
    (hs : Sound g st) (hc : c ∉ g.gmines) : Sound g (ai_mark_safe st c) := by
  obtain ⟨h1, h2, h3⟩ := hs
  refine ⟨?_, ?_, ?_⟩
  · intro x hx
    rcases Finset.mem_insert.mp hx with rfl | hx
    · exact hc
    · exact h1 x hx
  · exact h2
  · intro e he
    simp only [ai_mark_safe, List.mem_map] at he
    obtain ⟨e', he', rfl⟩ := he
    exact sentence_mark_safe_true (h3 e' he') hc

/-- `MinesweeperAI.mark_mine` preserves soundness when the cell is a mine. -/
theorem ai_mark_mine_sound {g : Grid} {st : AIState} {c : Cell}
    (hs : Sound g st) (hc : c ∈ g.gmines) : Sound g (ai_mark_mine st c) := by
  obtain ⟨h1, h2, h3⟩ := hs
  refine ⟨h1, ?_, ?_⟩
  · intro x hx
    rcases Finset.mem_insert.mp hx with rfl | hx
    · exact hc
    · exact h2 x hx
  · intro e he
    simp only [ai_mark_mine, List.mem_map] at he
    obtain ⟨e', he', rfl⟩ := he
    exact sentence_mark_mine_true (h3 e' he') hc

/-- Folding `mark_safe` over non-mine cells preserves soundness. -/
theorem foldMarkSafe_sound {g : Grid} {cs : List Cell} :
    ∀ {st : AIState}, Sound g st → (∀ c ∈ cs, c ∉ g.gmines) →
      Sound g (foldMarkSafe st cs) := by
  induction cs with
  | nil => intro st hs _; exact hs
  | cons c rest ih =>
    intro st hs hcs
    exact ih (ai_mark_safe_sound hs (hcs c (List.mem_cons_self c rest))) fun x hx => hcs x (List.mem_cons_of_mem c hx)

/-- Folding `mark_mine` over mine cells preserves soundness. -/
theorem foldMarkMine_sound {g : Grid} {cs : List Cell} :
    ∀ {st : AIState}, Sound g st → (∀ c ∈ cs, c ∈ g.gmines) →
      Sound g (foldMarkMine st cs) := by
  induction cs with
  | nil => intro st hs _; exact hs
  | cons c rest ih =>
    intro st hs hcs
    exact ih (ai_mark_mine_sound hs (hcs c (List.mem_cons_self c rest))) fun x hx => hcs x (List.mem_cons_of_mem c hx)

/-- The `known_mines` marking loop preserves soundness. -/
theorem markMinesAux_sound {g : Grid} :
    ∀ (steps : ℕ) {st : AIState} (i : ℕ), Sound g st → Sound g (markMinesAux steps st i) := by
  intro steps
  induction steps with
  | zero => intro st i hs; exact hs
  | succ steps ih =>
    intro st i hs
    unfold markMinesAux
    split
    · next h =>
      refine ih (i + 1) ?_
      refine foldMarkMine_sound hs ?_
      intro c hc
      have he : st.knowledge.get ⟨i, h⟩ ∈ st.knowledge := st.knowledge.get_mem i h
      exact known_mines_subset (hs.2.2 _ he) c (cellSort_subset hc)
    · exact hs

/-- The `known_safes` marking loop preserves soundness. -/
theorem markSafesAux_sound {g : Grid} :
    ∀ (steps : ℕ) {st : AIState} (i : ℕ), Sound g st → Sound g (markSafesAux steps st i) := by
  intro steps
  induction steps with
  | zero => intro st i hs; exact hs
  | succ steps ih =>
    intro st i hs
    unfold markSafesAux
    split
    · next h =>
      refine ih (i + 1) ?_
      refine foldMarkSafe_sound hs ?_
      intro c hc
      have he : st.knowledge.get ⟨i, h⟩ ∈ st.knowledge := st.knowledge.get_mem i h
      exact known_safes_not_mine (hs.2.2 _ he) c (cellSort_subset hc)
    · exact hs

theorem markMinesPass_sound {g : Grid} {st : AIState} (hs : Sound g st) :
    Sound g (markMinesPass st) := markMinesAux_sound _ 0 hs

theorem markSafesPass_sound {g : Grid} {st : AIState} (hs : Sound g st) :
    Sound g (markSafesPass st) := markSafesAux_sound _ 0 hs

/-- For an in-bounds probed cell, `get_surrounding_cells` is exactly the
`nearby_mines` neighbourhood minus the already-safe cells. -/
theorem get_surrounding_eq_nbhd {st : AIState} {cell : Cell}
    (h1 : cell.1 < st.height) (h2 : cell.2 < st.width) :
    get_surrounding_cells st cell =
      (nbhd st.height st.width cell).filter (fun p => p ∉ st.safes) := by
  unfold get_surrounding_cells nbhd
  ext p
  simp only [Finset.mem_filter, Finset.mem_product, Finset.mem_Icc]
  constructor
  · rintro ⟨⟨hr, hc⟩, hne, hsafe⟩
    refine ⟨⟨⟨?_, ?_⟩, hne, ?_, ?_⟩, hsafe⟩ <;> split_ifs at hr hc <;> omega
  · rintro ⟨⟨⟨hr, hc⟩, hne, hh, hw⟩, hsafe⟩
    refine ⟨⟨⟨?_, ?_⟩, ?_⟩, hne, hsafe⟩ <;> split_ifs <;> omega

/-- The probe sentence appended by `add_knowledge` is true under the ground
truth, provided the state is sound and the observation is valid. -/
theorem probe_sentence_true {g : Grid} {st : AIState} {cell : Cell} {count : ℤ}
    (hs : Sound g st) (hg : st.height = g.height) (hw : st.width = g.width)
    (hobs : ValidObs g cell count) :
    TrueS g ⟨get_surrounding_cells st cell, count⟩ := by
  obtain ⟨hb1, hb2, _, hcount⟩ := hobs
  unfold TrueS
  have hsur : get_surrounding_cells st cell =
      (nbhd st.height st.width cell).filter (fun p => p ∉ st.safes) :=
    get_surrounding_eq_nbhd (by rw [hg]; exact hb1) (by rw [hw]; exact hb2)
  have hset : get_surrounding_cells st cell ∩ g.gmines =
      (nbhd g.height g.width cell).filter (fun p => p ∈ g.gmines) := by
    rw [hsur, hg, hw]
    ext p
    simp only [Finset.mem_inter, Finset.mem_filter]
    constructor
    · rintro ⟨⟨hn, _⟩, hm⟩; exact ⟨hn, hm⟩
    · rintro ⟨hn, hm⟩
      exact ⟨⟨hn, fun hps => hs.1 p hps hm⟩, hm⟩
  simp only [hset, hcount, nearby_mines]

/-- Soundness of a sentence list alone. -/
def SoundK (g : Grid) (K : List KEntry) : Prop :=
  ∀ e ∈ K, TrueS g e.val

theorem removeFirstVal_subset {v : SVal} :
    ∀ {K : List KEntry} {e : KEntry}, e ∈ removeFirstVal v K → e ∈ K := by
  intro K
  induction K with
  | nil => intro e he; simp [removeFirstVal] at he
  | cons a rest ih =>
    intro e he
    unfold removeFirstVal at he
    split at he
    · exact List.mem_cons_of_mem a he
    · rcases List.mem_cons.mp he with rfl | he
      · exact List.mem_cons_self _ _
      · exact List.mem_cons_of_mem a (ih he)

/-- The sentence derived by the subset-inference rule from two true
sentences is true. -/
theorem derived_sentence_true {g : Grid} {v1 v2 : SVal}
    (h1 : TrueS g v1) (h2 : TrueS g v2) (hsub : v1.cells ⊆ v2.cells) :
    TrueS g ⟨v2.cells \ v1.cells, v2.count - v1.count⟩ := by
  unfold TrueS at *
  have hss : v1.cells ∩ g.gmines ⊆ v2.cells ∩ g.gmines :=
    Finset.inter_subset_inter hsub (Finset.Subset.refl _)
  have hset : (v2.cells \ v1.cells) ∩ g.gmines =
      (v2.cells ∩ g.gmines) \ (v1.cells ∩ g.gmines) := by
    ext x
    simp only [Finset.mem_inter, Finset.mem_sdiff]
    constructor
    · rintro ⟨⟨hx2, hx1⟩, hm⟩
      exact ⟨⟨hx2, hm⟩, fun hc => hx1 hc.1⟩
    · rintro ⟨⟨hx2, hm⟩, hn⟩
      exact ⟨⟨hx2, fun hc => hn ⟨hc, hm⟩⟩, hm⟩
  have hcard := Finset.card_sdiff hss
  have hle := Finset.card_le_card hss
  simp only [hset, hcard]
  push_cast [Nat.cast_sub hle]
  omega

/-- The inner loop of the subset-inference pass preserves soundness of the
sentence list. -/
theorem innerLoop_sound {g : Grid} {s1 : KEntry} (hs1 : TrueS g s1.val) :
    ∀ (fuel : ℕ) {K : List KEntry} {n j : ℕ} {K' : List KEntry} {n' : ℕ},
      SoundK g K → innerLoop s1 fuel K n j = some (K', n') → SoundK g K' := by
  intro fuel
  induction fuel with
  | zero => intro K n j K' n' _ h; exact absurd h (by simp [innerLoop])
  | succ fuel ih =>
    intro K n j K' n' hK h
    unfold innerLoop at h
    split at h
    · next hj =>
      dsimp only at h
      split at h
      · exact ih hK h
      · split at h
        · refine ih ?_ h
          intro e he
          exact hK e (removeFirstVal_subset he)
        · split at h
          · next hsub =>
            split at h
            · exact ih hK h
            · refine ih ?_ h
              intro e he
              rcases List.mem_append.mp he with he | he
              · exact hK e he
              · rcases List.mem_singleton.mp he with rfl
                exact derived_sentence_true hs1 (hK _ (K.get_mem j hj)) hsub
          · exact ih hK h
    · simp only [Option.some.injEq, Prod.mk.injEq] at h
      obtain ⟨rfl, rfl⟩ := h
      exact hK

/-- The outer loop of the subset-inference pass preserves soundness of the
sentence list. -/
theorem outerLoop_sound {g : Grid} :
    ∀ (fuel : ℕ) {K : List KEntry} {n i : ℕ} {K' : List KEntry} {n' : ℕ},
      SoundK g K → outerLoop fuel K n i = some (K', n') → SoundK g K' := by
  intro fuel
  induction fuel with
  | zero => intro K n i K' n' _ h; exact absurd h (by simp [outerLoop])
  | succ fuel ih =>
    intro K n i K' n' hK h
    unfold outerLoop at h
    split at h
    · next hi =>
      split at h
      · exact absurd h (by simp)
      · next K'' n'' hinner =>
        exact ih (innerLoop_sound (hK _ (K.get_mem i hi)) fuel hK hinner) h
    · simp only [Option.some.injEq, Prod.mk.injEq] at h
      obtain ⟨rfl, rfl⟩ := h
      exact hK

/-- Fields of the state untouched (or only grown) by a `mark_mine` fold. -/
theorem foldMarkMine_fields (cs : List Cell) : ∀ st : AIState,
    (foldMarkMine st cs).height = st.height ∧
    (foldMarkMine st cs).width = st.width ∧
    (foldMarkMine st cs).moves_made = st.moves_made ∧
    (foldMarkMine st cs).safes = st.safes ∧
    st.mines ⊆ (foldMarkMine st cs).mines := by
  induction cs with
  | nil => intro st; exact ⟨rfl, rfl, rfl, rfl, Finset.Subset.refl _⟩
  | cons c rest ih =>
    intro st
    have h := ih (ai_mark_mine st c)
    refine ⟨h.1, h.2.1, h.2.2.1, h.2.2.2.1, ?_⟩
    exact Finset.Subset.trans (Finset.subset_insert c st.mines) h.2.2.2.2

/-- Fields of the state untouched (or only grown) by a `mark_safe` fold. -/
theorem foldMarkSafe_fields (cs : List Cell) : ∀ st : AIState,
    (foldMarkSafe st cs).height = st.height ∧
    (foldMarkSafe st cs).width = st.width ∧
    (foldMarkSafe st cs).moves_made = st.moves_made ∧
    (foldMarkSafe st cs).mines = st.mines ∧
    st.safes ⊆ (foldMarkSafe st cs).safes := by
  induction cs with
  | nil => intro st; exact ⟨rfl, rfl, rfl, rfl, Finset.Subset.refl _⟩
  | cons c rest ih =>
    intro st
    have h := ih (ai_mark_safe st c)
    refine ⟨h.1, h.2.1, h.2.2.1, h.2.2.2.1, ?_⟩
    exact Finset.Subset.trans (Finset.subset_insert c st.safes) h.2.2.2.2

/-- Fields of the state untouched (or only grown) by the `known_mines`
marking loop. -/
theorem markMinesAux_fields : ∀ (steps : ℕ) (st : AIState) (i : ℕ),
    (markMinesAux steps st i).height = st.height ∧
    (markMinesAux steps st i).width = st.width ∧
    (markMinesAux steps st i).moves_made = st.moves_made ∧
    (markMinesAux steps st i).safes = st.safes ∧
    st.mines ⊆ (markMinesAux steps st i).mines := by
  intro steps
  induction steps with
  | zero => intro st i; exact ⟨rfl, rfl, rfl, rfl, Finset.Subset.refl _⟩
  | succ steps ih =>
    intro st i
    unfold markMinesAux
    split
    · next h =>
      have hf := foldMarkMine_fields (cellSort (known_mines (st.knowledge.get ⟨i, h⟩).val)) st
      have hr := ih (foldMarkMine st (cellSort (known_mines (st.knowledge.get ⟨i, h⟩).val))) (i + 1)
      refine ⟨hr.1.trans hf.1, hr.2.1.trans hf.2.1, hr.2.2.1.trans hf.2.2.1,
        hr.2.2.2.1.trans hf.2.2.2.1, Finset.Subset.trans hf.2.2.2.2 hr.2.2.2.2⟩
    · exact ⟨rfl, rfl, rfl, rfl, Finset.Subset.refl _⟩

/-- Fields of the state untouched (or only grown) by the `known_safes`
marking loop. -/
theorem markSafesAux_fields : ∀ (steps : ℕ) (st : AIState) (i : ℕ),
    (markSafesAux steps st i).height = st.height ∧
    (markSafesAux steps st i).width = st.width ∧
    (markSafesAux steps st i).moves_made = st.moves_made ∧
    (markSafesAux steps st i).mines = st.mines ∧
    st.safes ⊆ (markSafesAux steps st i).safes := by
  intro steps
  induction steps with
  | zero => intro st i; exact ⟨rfl, rfl, rfl, rfl, Finset.Subset.refl _⟩
  | succ steps ih =>
    intro st i
    unfold markSafesAux
    split
    · next h =>
      have hf := foldMarkSafe_fields (cellSort (known_safes (st.knowledge.get ⟨i, h⟩).val)) st
      have hr := ih (foldMarkSafe st (cellSort (known_safes (st.knowledge.get ⟨i, h⟩).val))) (i + 1)
      refine ⟨hr.1.trans hf.1, hr.2.1.trans hf.2.1, hr.2.2.1.trans hf.2.2.1,
        hr.2.2.2.1.trans hf.2.2.2.1, Finset.Subset.trans hf.2.2.2.2 hr.2.2.2.2⟩
    · exact ⟨rfl, rfl, rfl, rfl, Finset.Subset.refl _⟩

/-- Fields of the state through the pre-pass phase of `add_knowledge`. -/
theorem pre_pass_fields (st : AIState) (cell : Cell) (count : ℤ) :
    (pre_pass_state st cell count).height = st.height ∧
    (pre_pass_state st cell count).width = st.width ∧
    st.moves_made ⊆ (pre_pass_state st cell count).moves_made ∧
    st.safes ⊆ (pre_pass_state st cell count).safes ∧
    st.mines ⊆ (pre_pass_state st cell count).mines := by
  unfold pre_pass_state
  have h3 : (add_sentence_phase st cell count).height = st.height ∧
      (add_sentence_phase st cell count).width = st.width ∧
      (add_sentence_phase st cell count).moves_made = insert cell st.moves_made ∧
      (add_sentence_phase st cell count).safes = insert cell st.safes ∧
      (add_sentence_phase st cell count).mines = st.mines := by
    unfold add_sentence_phase ai_mark_safe
    exact ⟨rfl, rfl, rfl, rfl, rfl⟩
  have h4 := markMinesAux_fields (add_sentence_phase st cell count).knowledge.length
    (add_sentence_phase st cell count) 0
  have h5 := markSafesAux_fields (markMinesPass (add_sentence_phase st cell count)).knowledge.length
    (markMinesPass (add_sentence_phase st cell count)) 0
  unfold markMinesPass at *
  unfold markSafesPass at *
  split
  · have h6 := foldMarkSafe_fields
      (cellSort (get_surrounding_cells st cell))
      (markSafesAux (markMinesAux (add_sentence_phase st cell count).knowledge.length
        (add_sentence_phase st cell count) 0).knowledge.length
        (markMinesAux (add_sentence_phase st cell count).knowledge.length
          (add_sentence_phase st cell count) 0) 0)
    refine ⟨h6.1.trans (h5.1.trans (h4.1.trans h3.1)),
      h6.2.1.trans (h5.2.1.trans (h4.2.1.trans h3.2.1)), ?_, ?_, ?_⟩
    · rw [h6.2.2.1, h5.2.2.1, h4.2.2.1, h3.2.2.1]
      exact Finset.subset_insert _ _
    · refine Finset.Subset.trans ?_ h6.2.2.2.2
      refine Finset.Subset.trans ?_ h5.2.2.2.2
      rw [h4.2.2.2.1, h3.2.2.2.1]
      exact Finset.subset_insert _ _
    · rw [h6.2.2.2.1, h5.2.2.2.1]
      refine Finset.Subset.trans ?_ h4.2.2.2.2
      rw [h3.2.2.2.2]
  · refine ⟨h5.1.trans (h4.1.trans h3.1),
      h5.2.1.trans (h4.2.1.trans h3.2.1), ?_, ?_, ?_⟩
    · rw [h5.2.2.1, h4.2.2.1, h3.2.2.1]
      exact Finset.subset_insert _ _
    · refine Finset.Subset.trans ?_ h5.2.2.2.2
      rw [h4.2.2.2.1, h3.2.2.2.1]
      exact Finset.subset_insert _ _
    · rw [h5.2.2.2.1]
      refine Finset.Subset.trans ?_ h4.2.2.2.2
      rw [h3.2.2.2.2]

/-- Fields of the state through the post-pass phase of `add_knowledge`. -/
theorem post_pass_fields (st6 : AIState) (K : List KEntry) (n : ℕ) :
    (post_pass_state st6 K n).height = st6.height ∧
    (post_pass_state st6 K n).width = st6.width ∧
    (post_pass_state st6 K n).moves_made = st6.moves_made ∧
    st6.safes ⊆ (post_pass_state st6 K n).safes ∧
    st6.mines ⊆ (post_pass_state st6 K n).mines := by
  unfold post_pass_state markSafesPass markMinesPass
  have h8 := markMinesAux_fields ({ st6 with knowledge := K, nextId := n } : AIState).knowledge.length
    ({ st6 with knowledge := K, nextId := n }) 0
  have h9 := markSafesAux_fields
    (markMinesAux ({ st6 with knowledge := K, nextId := n } : AIState).knowledge.length
      ({ st6 with knowledge := K, nextId := n }) 0).knowledge.length
    (markMinesAux ({ st6 with knowledge := K, nextId := n } : AIState).knowledge.length
      ({ st6 with knowledge := K, nextId := n }) 0) 0
  refine ⟨h9.1.trans h8.1, h9.2.1.trans h8.2.1, h9.2.2.1.trans h8.2.2.1, ?_, ?_⟩
  · refine Finset.Subset.trans (fun x hx => ?_) h9.2.2.2.2
    rw [h8.2.2.2.1]
    exact hx
  · rw [h9.2.2.2.1]
    exact h8.2.2.2.2

/-- Definitional unfolding of `add_knowledge` with the `let` inlined. -/
theorem add_knowledge_eq (fuel : ℕ) (st : AIState) (cell : Cell) (count : ℤ) :
    add_knowledge fuel st cell count =
      match outerLoop fuel (pre_pass_state st cell count).knowledge
          (pre_pass_state st cell count).nextId 0 with
      | none => none
      | some (K, n) => some (post_pass_state (pre_pass_state st cell count) K n) := rfl

/-- `add_knowledge` never changes the grid dimensions and never removes a
cell from `moves_made`, `safes` or `mines`. -/
theorem add_knowledge_fields {fuel : ℕ} {st : AIState} {cell : Cell} {count : ℤ}
    {st' : AIState} (h : add_knowledge fuel st cell count = some st') :
    st'.height = st.height ∧ st'.width = st.width ∧
    st.moves_made ⊆ st'.moves_made ∧ st.safes ⊆ st'.safes ∧ st.mines ⊆ st'.mines := by
  rw [add_knowledge_eq] at h
  split at h
  · exact absurd h (by simp)
  · next K n houter =>
    simp only [Option.some.injEq] at h
    subst h
    have hp := pre_pass_fields st cell count
    have hq := post_pass_fields (pre_pass_state st cell count) K n
    exact ⟨hq.1.trans hp.1, hq.2.1.trans hp.2.1,
      Finset.Subset.trans hp.2.2.1 (le_of_eq hq.2.2.1.symm),
      Finset.Subset.trans hp.2.2.2.1 hq.2.2.2.1,
      Finset.Subset.trans hp.2.2.2.2 hq.2.2.2.2⟩

/-- Steps 1–3 of `add_knowledge` preserve soundness for a valid
observation. -/
theorem add_sentence_phase_sound {g : Grid} {st : AIState} {cell : Cell} {count : ℤ}
    (hs : Sound g st) (hg : st.height = g.height) (hw : st.width = g.width)
    (hobs : ValidObs g cell count) : Sound g (add_sentence_phase st cell count) := by
  have hst1 : Sound g ({ st with moves_made := insert cell st.moves_made }) := hs
  have hst2 := ai_mark_safe_sound hst1 hobs.2.2.1
  refine ⟨hst2.1, hst2.2.1, ?_⟩
  intro e he
  simp only [add_sentence_phase, List.mem_append, List.mem_singleton] at he
  rcases he with he | rfl
  · exact hst2.2.2 e he
  · exact probe_sentence_true hs hg hw hobs

/-- The whole pre-pass phase of `add_knowledge` preserves soundness. -/
theorem pre_pass_sound {g : Grid} {st : AIState} {cell : Cell} {count : ℤ}
    (hs : Sound g st) (hg : st.height = g.height) (hw : st.width = g.width)
    (hobs : ValidObs g cell count) : Sound g (pre_pass_state st cell count) := by
  unfold pre_pass_state
  have h5 := markSafesPass_sound (markMinesPass_sound (add_sentence_phase_sound hs hg hw hobs))
  split
  · next h0 =>
    refine foldMarkSafe_sound h5 ?_
    intro c hc
    exact count_zero_no_mines (probe_sentence_true hs hg hw hobs) h0 c (cellSort_subset hc)
  · exact h5

/-- The post-pass phase preserves soundness given a sound sentence list. -/
theorem post_pass_sound {g : Grid} {st6 : AIState} {K : List KEntry} {n : ℕ}
    (hs6 : Sound g st6) (hK : SoundK g K) : Sound g (post_pass_state st6 K n) :=
  markSafesPass_sound (markMinesPass_sound ⟨hs6.1, hs6.2.1, hK⟩)

/-- `add_knowledge` preserves soundness for a valid observation. -/
theorem add_knowledge_sound {g : Grid} {fuel : ℕ} {st : AIState} {cell : Cell}
    {count : ℤ} {st' : AIState} (hs : Sound g st)
    (hg : st.height = g.height) (hw : st.width = g.width)
    (hobs : ValidObs g cell count)
    (h : add_knowledge fuel st cell count = some st') : Sound g st' := by
  rw [add_knowledge_eq] at h
  split at h
  · exact absurd h (by simp)
  · next K n houter =>
    simp only [Option.some.injEq] at h
    subst h
    have hs6 := pre_pass_sound hs hg hw hobs
    exact post_pass_sound hs6 (outerLoop_sound fuel hs6.2.2 houter)

/-- A run of valid observations preserves soundness (and dimensions). -/
theorem runObs_sound {g : Grid} :
    ∀ (obs : List (Cell × ℤ)) (fuel : ℕ) (st st' : AIState), Sound g st →
      st.height = g.height → st.width = g.width →
      (∀ p ∈ obs, ValidObs g p.1 p.2) →
      runObs fuel st obs = some st' →
      Sound g st' ∧ st'.height = g.height ∧ st'.width = g.width := by
  intro obs
  induction obs with
  | nil =>
    intro fuel st st' hs hg hw _ h
    simp only [runObs, Option.some.injEq] at h
    subst h
    exact ⟨hs, hg, hw⟩
  | cons p rest ih =>
    intro fuel st st' hs hg hw hobs h
    unfold runObs at h
    split at h
    · exact absurd h (by simp)
    · next st1 hstep =>
      have hf := add_knowledge_fields hstep
      refine ih fuel st1 st' ?_ (hf.1.trans hg) (hf.2.1.trans hw) ?_ h
      · exact add_knowledge_sound hs hg hw (hobs p (List.mem_cons_self _ _)) hstep
      · intro q hq
        exact hobs q (List.mem_cons_of_mem p hq)

/-- A run of `add_knowledge` calls only grows `safes` and `mines`. -/
theorem runObs_fields :
    ∀ (obs : List (Cell × ℤ)) (fuel : ℕ) (st st' : AIState),
      runObs fuel st obs = some st' →
      st.safes ⊆ st'.safes ∧ st.mines ⊆ st'.mines := by
  intro obs
  induction obs with
  | nil =>
    intro fuel st st' h
    simp only [runObs, Option.some.injEq] at h
    subst h
    exact ⟨Finset.Subset.refl _, Finset.Subset.refl _⟩
  | cons p rest ih =>
    intro fuel st st' h
    unfold runObs at h
    split at h
    · exact absurd h (by simp)
    · next st1 hstep =>
      have hf := add_knowledge_fields hstep
      have hr := ih fuel st1 st' h
      exact ⟨Finset.Subset.trans hf.2.2.2.1 hr.1, Finset.Subset.trans hf.2.2.2.2 hr.2⟩

/-! ## Non-termination of the subset-inference pass on a contradictory
knowledge base (claim C8).

With the sentence `(∅, 1)` in the knowledge base (producible by an untruthful
probe report), the inner loop of the subset-inference pass keeps deriving
`(∅, 0 - k)` from the empty sentence and the most recently appended sentence
and appending it, extending its own iteration forever. -/

/-- The inner loop of the subset-inference pass, with outer sentence
`(∅, 1)`, never exits when the iterator stands on the last element, that
element has an empty cell set and a count smaller than every other count. -/
theorem innerLoop_stuck :
    ∀ (fuel : ℕ) (Kpre : List KEntry) (last : KEntry) (n : ℕ),
      (∀ e ∈ Kpre, e.val.cells = ∅) → last.val.cells = ∅ →
      last.eid ≠ 0 → 0 < n → last.val.count < 1 →
      (∀ e ∈ Kpre, last.val.count < e.val.count) →
      innerLoop ⟨0, ⟨∅, 1⟩⟩ fuel (Kpre ++ [last]) n Kpre.length = none := by
  intro fuel
  induction fuel with
  | zero => intro Kpre last n _ _ _ _ _ _; rfl
  | succ fuel ih =>
    intro Kpre last n hKpre hlast heid hn hcount hlt
    have hlen : Kpre.length < (Kpre ++ [last]).length := by simp
    unfold innerLoop
    rw [dif_pos hlen]
    have hget : (Kpre ++ [last]).get ⟨Kpre.length, hlen⟩ = last := by
      rw [List.get_eq_getElem]
      exact List.getElem_concat_length _ _ _ rfl _
    rw [hget]
    rw [if_neg heid]
    rw [if_neg (fun hv : last.val = (⟨0, ⟨∅, 1⟩⟩ : KEntry).val => by
      have hc : last.val.count = 1 := congrArg SVal.count hv
      omega)]
    rw [if_pos (show (⟨0, ⟨∅, 1⟩⟩ : KEntry).val.cells ⊆ last.val.cells from
      Finset.empty_subset _)]
    rw [if_neg (fun hany => by
      rw [List.any_eq_true] at hany
      obtain ⟨e, he, hev⟩ := hany
      rw [decide_eq_true_eq] at hev
      have hc : e.val.count = last.val.count - 1 := congrArg SVal.count hev
      rcases List.mem_append.mp he with he | he
      · have := hlt e he
        omega
      · rcases List.mem_singleton.mp he with rfl
        omega)]
    have hgoal := ih (Kpre ++ [last])
      ⟨n, ⟨last.val.cells \ (⟨0, ⟨∅, 1⟩⟩ : KEntry).val.cells,
        last.val.count - (⟨0, ⟨∅, 1⟩⟩ : KEntry).val.count⟩⟩ (n + 1)
      (by
        intro e he
        rcases List.mem_append.mp he with he | he
        · exact hKpre e he
        · rcases List.mem_singleton.mp he with rfl
          exact hlast)
      (by simp [hlast])
      (by show n ≠ 0; omega) (by omega)
      (by show last.val.count - 1 < 1; omega)
      (by
        intro e he
        show last.val.count - 1 < e.val.count
        rcases List.mem_append.mp he with he | he
        · have := hlt e he
          omega
        · rcases List.mem_singleton.mp he with rfl
          omega)
    have hlen2 : (Kpre ++ [last]).length = Kpre.length + 1 := by simp
    rw [hlen2] at hgoal
    exact hgoal

/-- The contradictory AI state produced by the (caller-contract-violating)
probe report `add_knowledge((0,0), 1)` on a fresh 1×1 engine: the knowledge
base holds the unsatisfiable sentence `(∅, 1)`. -/
def stuckState : AIState := ⟨1, 1, {(0, 0)}, ∅, {(0, 0)}, [⟨0, ⟨∅, 1⟩⟩], 1⟩

/-- The sentence list of `pre_pass_state stuckState (0,0) 0`. -/
def stuckK : List KEntry := [⟨0, ⟨∅, 1⟩⟩, ⟨1, ⟨∅, 0⟩⟩]

theorem innerLoop_stuck_start :
    ∀ fuel : ℕ, innerLoop ⟨0, ⟨∅, 1⟩⟩ fuel stuckK 2 0 = none := by
  intro fuel
  rcases fuel with _ | fuel
  · rfl
  · have hstep : innerLoop (⟨0, ⟨∅, 1⟩⟩ : KEntry) (fuel + 1) stuckK 2 0 =
        innerLoop ⟨0, ⟨∅, 1⟩⟩ fuel stuckK 2 1 := by
      show (if h : 0 < stuckK.length then _ else _) = _
      rw [dif_pos (by decide : 0 < stuckK.length)]
      rfl
    rw [hstep]
    have h := innerLoop_stuck fuel [⟨0, ⟨∅, 1⟩⟩] ⟨1, ⟨∅, 0⟩⟩ 2
      (by intro e he; rcases List.mem_singleton.mp he with rfl; rfl)
      rfl (by decide) (by decide) (by decide)
      (by intro e he; rcases List.mem_singleton.mp he with rfl; decide)
    exact h

theorem outerLoop_stuck : ∀ fuel : ℕ, outerLoop fuel stuckK 2 0 = none := by
  intro fuel
  rcases fuel with _ | fuel
  · rfl
  · have hstep : outerLoop (fuel + 1) stuckK 2 0 =
        match innerLoop ⟨0, ⟨∅, 1⟩⟩ fuel stuckK 2 0 with
        | none => none
        | some (K', n') => outerLoop fuel K' n' 1 := rfl
    rw [hstep, innerLoop_stuck_start fuel]

/-- Definitional unfolding of `make_safe_move`. -/
theorem make_safe_move_eq (st : AIState) :
    make_safe_move st =
      (match cellSort (st.safes \ st.moves_made) with
       | [] => none
       | c :: _ => some c, st) := rfl

/-- Definitional unfolding of `make_random_move`. -/
theorem make_random_move_eq (st : AIState) :
    make_random_move st =
      if (random_move_candidates st).card = 0 then none
      else
        match cellSort (random_move_candidates st) with
        | [] => none
        | c :: _ => some c := rfl

/-- `add_knowledge` returns `none` exactly when the subset-inference pass
runs out of fuel. -/
theorem add_knowledge_none_iff (fuel : ℕ) (st : AIState) (cell : Cell) (count : ℤ) :
    add_knowledge fuel st cell count = none ↔
      outerLoop fuel (pre_pass_state st cell count).knowledge
        (pre_pass_state st cell count).nextId 0 = none := by
  rcases h : outerLoop fuel (pre_pass_state st cell count).knowledge
      (pre_pass_state st cell count).nextId 0 with _ | ⟨K, n⟩ <;>
    simp [add_knowledge_eq, h]

/-! ## Concrete runs used by the claim theorems.

All of the following states were computed by evaluating the embedding; the
`decide`-proved equations check them against the definitions. -/

/-- One step of `runObs` under a known `add_knowledge` result. -/
theorem runObs_cons_eq (fuel : ℕ) (st : AIState) (c : Cell) (k : ℤ)
    (rest : List (Cell × ℤ)) (st1 : AIState)
    (h : add_knowledge fuel st c k = some st1) :
    runObs fuel st ((c, k) :: rest) = runObs fuel st1 rest := by
  show (match add_knowledge fuel st c k with
        | none => none
        | some s => runObs fuel s rest) = _
  rw [h]

/-- State after `add_knowledge((0,0), 0)` on a fresh 1×1 engine. -/
def stateA : AIState := ⟨1, 1, {(0, 0)}, ∅, {(0, 0)}, [⟨0, ⟨∅, 0⟩⟩], 1⟩

theorem stateA_run : add_knowledge 64 (initAI 1 1) (0, 0) 0 = some stateA := by decide

theorem stateA_runObs : runObs 64 (initAI 1 1) [((0, 0), 0)] = some stateA := by
  rw [runObs_cons_eq 64 _ _ _ _ _ stateA_run]
  rfl

/-- States of the two-probe game on the 1×4 grid with its mine at `(0,0)`:
probe `(0,1)` (true count 1), then probe `(0,3)` (true count 0). -/
def stateB1 : AIState := ⟨1, 4, {(0, 1)}, ∅, {(0, 1)}, [⟨0, ⟨{(0, 0), (0, 2)}, 1⟩⟩], 1⟩

/-- Final state of the 1×4 game: the knowledge base holds the sentence
`({(0,0)}, 1)` twice. -/
def stateB2 : AIState := ⟨1, 4, {(0, 1), (0, 3)}, {(0, 0)}, {(0, 1), (0, 2), (0, 3)},
  [⟨0, ⟨{(0, 0)}, 1⟩⟩, ⟨1, ⟨{(0, 0)}, 1⟩⟩], 2⟩

theorem stateB_run1 : add_knowledge 64 (initAI 1 4) (0, 1) 1 = some stateB1 := by decide

theorem stateB_run2 : add_knowledge 64 stateB1 (0, 3) 0 = some stateB2 := by decide

theorem stateB_runObs :
    runObs 64 (initAI 1 4) [((0, 1), 1), ((0, 3), 0)] = some stateB2 := by
  rw [runObs_cons_eq 64 _ _ _ _ _ stateB_run1, runObs_cons_eq 64 _ _ _ _ _ stateB_run2]
  rfl

/-- States of the four-probe game on the 1×9 grid with mines at `(0,0)` and
`(0,8)`: probes `(0,7)`, `(0,1)` (true counts 1), `(0,4)`, `(0,3)` (true
counts 0). -/
def stateT1 : AIState := ⟨1, 9, {(0, 7)}, ∅, {(0, 7)}, [⟨0, ⟨{(0, 6), (0, 8)}, 1⟩⟩], 1⟩

def stateT2 : AIState := ⟨1, 9, {(0, 1), (0, 7)}, ∅, {(0, 1), (0, 7)},
  [⟨0, ⟨{(0, 6), (0, 8)}, 1⟩⟩, ⟨1, ⟨{(0, 0), (0, 2)}, 1⟩⟩], 2⟩

def stateT3 : AIState := ⟨1, 9, {(0, 1), (0, 4), (0, 7)}, ∅,
  {(0, 1), (0, 3), (0, 4), (0, 5), (0, 7)},
  [⟨0, ⟨{(0, 6), (0, 8)}, 1⟩⟩, ⟨1, ⟨{(0, 0), (0, 2)}, 1⟩⟩, ⟨2, ⟨∅, 0⟩⟩], 3⟩

/-- Final state of the 1×9 game.  The final marking loop has corrupted the
sentence of probe `(0,7)` into `({(0,0),(0,6),(0,8)}, 2)` (by the
cell-adding `mark_mine`), so the subset difference with `({(0,0)}, 1)` is no
longer in the knowledge base. -/
def stateT4 : AIState := ⟨1, 9, {(0, 1), (0, 3), (0, 4), (0, 7)}, {(0, 0)},
  {(0, 1), (0, 2), (0, 3), (0, 4), (0, 5), (0, 7)},
  [⟨0, ⟨{(0, 0), (0, 6), (0, 8)}, 2⟩⟩, ⟨1, ⟨{(0, 0)}, 1⟩⟩, ⟨3, ⟨{(0, 0)}, 1⟩⟩], 4⟩

theorem stateT_run1 : add_knowledge 64 (initAI 1 9) (0, 7) 1 = some stateT1 := by decide

theorem stateT_run2 : add_knowledge 64 stateT1 (0, 1) 1 = some stateT2 := by decide

theorem stateT_run3 : add_knowledge 64 stateT2 (0, 4) 0 = some stateT3 := by decide

theorem stateT_run4 : add_knowledge 64 stateT3 (0, 3) 0 = some stateT4 := by decide

theorem stateT_runObs :
    runObs 64 (initAI 1 9) [((0, 7), 1), ((0, 1), 1), ((0, 4), 0), ((0, 3), 0)] =
      some stateT4 := by
  rw [runObs_cons_eq 64 _ _ _ _ _ stateT_run1, runObs_cons_eq 64 _ _ _ _ _ stateT_run2,
    runObs_cons_eq 64 _ _ _ _ _ stateT_run3, runObs_cons_eq 64 _ _ _ _ _ stateT_run4]
  rfl

/-- The sentence list produced by re-running the subset-inference pass on
`stateT4`: the new sentence `({(0,6),(0,8)}, 1)` appears (and one duplicate
of `({(0,0)}, 1)` is collapsed). -/
def rerunK : List KEntry :=
  [⟨0, ⟨{(0, 0), (0, 6), (0, 8)}, 2⟩⟩, ⟨3, ⟨{(0, 0)}, 1⟩⟩, ⟨4, ⟨{(0, 6), (0, 8)}, 1⟩⟩]

/-! ## Claim theorems -/

/-- C1 (amended.  The original claim quantifies over observations that
report the true hazard count of a not-previously-probed cell; soundness
additionally needs the probed cell to be a non-hazard — see
`claim1_counterexample` — which `ValidObs` requires.)  For every grid and
every sequence of `add_knowledge` calls in which each `(cell, count)` pair
reports the true hazard count of a not-previously-probed, non-hazard cell of
that grid, every cell in `self.mines` is a hazard and every cell in
`self.safes` is not. -/
theorem claim1_soundness (g : Grid) (obs : List (Cell × ℤ)) (fuel : ℕ) (st' : AIState)
    (hvalid : ∀ p ∈ obs, ValidObs g p.1 p.2)
    (_hdistinct : (obs.map Prod.fst).Pairwise (· ≠ ·))
    (hrun : runObs fuel (initAI g.height g.width) obs = some st') :
    (∀ c ∈ st'.mines, c ∈ g.gmines) ∧ (∀ c ∈ st'.safes, c ∉ g.gmines) := by
  have hinit : Sound g (initAI g.height g.width) := by
    refine ⟨?_, ?_, ?_⟩
    · intro x hx
      simp [initAI] at hx
    · intro x hx
      simp [initAI] at hx
    · intro e he
      simp [initAI] at he
  have h := runObs_sound obs fuel _ st' hinit rfl rfl hvalid hrun
  exact ⟨h.1.2.1, h.1.1⟩

/-- Witness for C1: the valid two-probe game of `stateB_runObs` against the
1×4 grid with its mine at `(0,0)`. -/
theorem claim1_soundness_witness :
    (∀ p ∈ ([((0, 1), 1), ((0, 3), 0)] : List (Cell × ℤ)),
      ValidObs ⟨1, 4, {(0, 0)}⟩ p.1 p.2) ∧
    (∀ c ∈ stateB2.mines, c ∈ ({(0, 0)} : Finset Cell)) ∧
    (∀ c ∈ stateB2.safes, c ∉ ({(0, 0)} : Finset Cell)) :=
  ⟨by decide,
   (claim1_soundness ⟨1, 4, {(0, 0)}⟩ [((0, 1), 1), ((0, 3), 0)] 64 stateB2
      (by decide) (by decide) stateB_runObs).1,
   (claim1_soundness ⟨1, 4, {(0, 0)}⟩ [((0, 1), 1), ((0, 3), 0)] 64 stateB2
      (by decide) (by decide) stateB_runObs).2⟩

/-- Counterexample to C1 as stated: on the 1×1 grid whose only cell `(0,0)`
is a hazard, the single call `add_knowledge((0,0), 0)` reports the true
hazard count (0: the cell has no neighbours) of a not-previously-probed cell
of the grid, yet the engine ends with the hazard `(0,0)` in its known-safe
set. -/
theorem claim1_counterexample :
    (0, 0) ∉ (initAI 1 1).moves_made ∧
    (0 : ℤ) = (nearby_mines ⟨1, 1, {(0, 0)}⟩ (0, 0) : ℤ) ∧
    add_knowledge 64 (initAI 1 1) (0, 0) 0 = some stateA ∧
    (0, 0) ∈ stateA.safes ∧ (0, 0) ∈ (⟨1, 1, {(0, 0)}⟩ : Grid).gmines :=
  ⟨by decide, by decide, stateA_run, by decide, by decide⟩

/-- C2: what `Sentence.mark_mine` actually does.  The claim (and the spec)
say marking a hazard cell removes it from the sentence's cell set and
decrements the count; the code instead leaves a sentence containing the cell
unchanged — the cell stays in `S.cells` and the count does not decrease —
and adds the cell (incrementing the count) to sentences not containing
it. -/
theorem claim2_mark_mine_behavior :
    sentence_mark_mine ⟨{(0, 0), (0, 1)}, 1⟩ (0, 0) = ⟨{(0, 0), (0, 1)}, 1⟩ ∧
    (0, 0) ∈ (sentence_mark_mine ⟨{(0, 0), (0, 1)}, 1⟩ (0, 0)).cells ∧
    sentence_mark_mine ⟨{(0, 1)}, 1⟩ (0, 0) = ⟨{(0, 0), (0, 1)}, 2⟩ := by
  refine ⟨by decide, by decide, by decide⟩

/-- C3: the subset-inference pass is not idempotent on the state in which
`add_knowledge` returns.  After the four-probe game of `stateT_runObs`
(truthful observations on the 1×9 grid with mines `(0,0)` and `(0,8)`),
re-running the pass on the returned state adds the sentence
`({(0,6),(0,8)}, 1)`, which was not present at return. -/
theorem claim3_subset_pass_not_idempotent :
    runObs 64 (initAI 1 9) [((0, 7), 1), ((0, 1), 1), ((0, 4), 0), ((0, 3), 0)] =
      some stateT4 ∧
    rerunPass 64 stateT4 = some (rerunK, 5) ∧
    (⟨{(0, 6), (0, 8)}, 1⟩ : SVal) ∈ rerunK.map KEntry.val ∧
    (⟨{(0, 6), (0, 8)}, 1⟩ : SVal) ∉ stateT4.knowledge.map KEntry.val :=
  ⟨stateT_runObs, by decide, by decide, by decide⟩

/-- C4 (amended: the probe sentence is appended to the knowledge base
unconditionally — also when its unknown-neighbour set is empty — and no
code path discards sentences with empty cell sets, so such sentences can be
in the knowledge base when `add_knowledge` returns; see
`claim4_counterexample`). -/
theorem claim4_probe_appended_unconditionally (st : AIState) (cell : Cell) (count : ℤ) :
    (⟨get_surrounding_cells st cell, count⟩ : SVal) ∈
      (add_sentence_phase st cell count).knowledge.map KEntry.val := by
  simp [add_sentence_phase]

/-- Counterexample to C4 as stated: probing the only cell of a 1×1 grid
yields an empty unknown-neighbour set, yet the sentence `(∅, 0)` is added
and is still in the knowledge base when the call returns. -/
theorem claim4_counterexample :
    get_surrounding_cells (initAI 1 1) (0, 0) = ∅ ∧
    add_knowledge 64 (initAI 1 1) (0, 0) 0 = some stateA ∧
    (⟨∅, 0⟩ : SVal) ∈ stateA.knowledge.map KEntry.val :=
  ⟨by decide, stateA_run, by decide⟩

/-- C5: across any sequence of `add_knowledge` calls that returns, the
known-safe and known-mine sets never lose a member. -/
theorem claim5_monotonicity (obs : List (Cell × ℤ)) (fuel : ℕ) (st st' : AIState)
    (h : runObs fuel st obs = some st') :
    st.safes ⊆ st'.safes ∧ st.mines ⊆ st'.mines :=
  runObs_fields obs fuel st st' h

/-- Witness for C5 at the concrete one-probe run of `stateA_runObs`. -/
theorem claim5_monotonicity_witness :
    runObs 64 (initAI 1 1) [((0, 0), 0)] = some stateA ∧
    (initAI 1 1).safes ⊆ stateA.safes ∧ (initAI 1 1).mines ⊆ stateA.mines :=
  ⟨stateA_runObs,
   (claim5_monotonicity [((0, 0), 0)] 64 (initAI 1 1) stateA stateA_runObs).1,
   (claim5_monotonicity [((0, 0), 0)] 64 (initAI 1 1) stateA stateA_runObs).2⟩

/-- C6: two equal sentences can coexist in the knowledge base at the moment
`add_knowledge` returns.  In the truthful two-probe game of `stateB_runObs`
(1×4 grid, mine at `(0,0)`), the final marking loop turns the sentence
`(∅, 0)` into `({(0,0)}, 1)` — a duplicate of the sentence already present —
after the duplicate-collapsing subset pass has already run. -/
theorem claim6_duplicates_at_return :
    runObs 64 (initAI 1 4) [((0, 1), 1), ((0, 3), 0)] = some stateB2 ∧
    stateB2.knowledge.map KEntry.val = [⟨{(0, 0)}, 1⟩, ⟨{(0, 0)}, 1⟩] ∧
    ¬ stateB2.knowledge.Pairwise (fun a b => a.val ≠ b.val) :=
  ⟨stateB_runObs, by decide, by decide⟩

/-- C7: for observations consistent with a single ground-truth grid, every
sentence in the knowledge base at return satisfies
`0 ≤ count ≤ |cells|`. -/
theorem claim7_count_range (g : Grid) (obs : List (Cell × ℤ)) (fuel : ℕ) (st' : AIState)
    (hvalid : ∀ p ∈ obs, ValidObs g p.1 p.2)
    (hrun : runObs fuel (initAI g.height g.width) obs = some st') :
    ∀ e ∈ st'.knowledge, 0 ≤ e.val.count ∧ e.val.count ≤ (e.val.cells.card : ℤ) := by
  have hinit : Sound g (initAI g.height g.width) := by
    refine ⟨?_, ?_, ?_⟩
    · intro x hx
      simp [initAI] at hx
    · intro x hx
      simp [initAI] at hx
    · intro e he
      simp [initAI] at he
  have h := runObs_sound obs fuel _ st' hinit rfl rfl hvalid hrun
  intro e he
  have ht := h.1.2.2 e he
  unfold TrueS at ht
  have hsub : e.val.cells ∩ g.gmines ⊆ e.val.cells := Finset.inter_subset_left
  have hle := Finset.card_le_card hsub
  omega

/-- Witness for C7 at the concrete four-probe run of `stateT_runObs`. -/
theorem claim7_count_range_witness :
    (∀ p ∈ ([((0, 7), 1), ((0, 1), 1), ((0, 4), 0), ((0, 3), 0)] : List (Cell × ℤ)),
      ValidObs ⟨1, 9, {(0, 0), (0, 8)}⟩ p.1 p.2) ∧
    (∀ e ∈ stateT4.knowledge, 0 ≤ e.val.count ∧ e.val.count ≤ (e.val.cells.card : ℤ)) :=
  ⟨by decide,
   claim7_count_range ⟨1, 9, {(0, 0), (0, 8)}⟩ _ 64 stateT4 (by decide) stateT_runObs⟩

/-- C8: `add_knowledge` does not terminate on every knowledge-base state.
The state `stuckState` — reached by the single (untruthful) probe report
`add_knowledge((0,0), 1)` on a fresh 1×1 engine — contains the sentence
`(∅, 1)`; on the next call the subset-inference pass derives `(∅, 0 - 1)`,
`(∅, -2)`, … forever, appending each to the list it is iterating over, so
the call exhausts every fuel bound. -/
theorem claim8_nontermination :
    add_knowledge 64 (initAI 1 1) (0, 0) 1 = some stuckState ∧
    ∀ fuel : ℕ, add_knowledge fuel stuckState (0, 0) 0 = none := by
  refine ⟨by decide, ?_⟩
  intro fuel
  rw [add_knowledge_none_iff]
  have hpre : pre_pass_state stuckState (0, 0) 0 =
      ⟨1, 1, {(0, 0)}, ∅, {(0, 0)}, stuckK, 2⟩ := by decide
  rw [hpre]
  exact outerLoop_stuck fuel

/-- C9: `make_safe_move` returns a cell of `safes \ moves_made` when that
set is non-empty, `None` exactly when it is empty, and leaves the state
unchanged. -/
theorem claim9_make_safe_move (st : AIState) :
    ((make_safe_move st).1 = none ↔ st.safes \ st.moves_made = ∅) ∧
    (∀ c, (make_safe_move st).1 = some c → c ∈ st.safes ∧ c ∉ st.moves_made) ∧
    (make_safe_move st).2 = st := by
  refine ⟨?_, ?_, rfl⟩
  · rw [make_safe_move_eq]
    rcases hc : cellSort (st.safes \ st.moves_made) with _ | ⟨a, rest⟩
    · simp [cellSort_eq_nil.mp hc]
    · refine iff_of_false (by simp) ?_
      intro he
      rw [he] at hc
      have h2 : ([] : List Cell) = a :: rest := (cellSort_eq_nil.mpr rfl).symm.trans hc
      exact List.noConfusion h2
  · intro c hsome
    rw [make_safe_move_eq] at hsome
    rcases hc : cellSort (st.safes \ st.moves_made) with _ | ⟨a, rest⟩ <;>
      rw [hc] at hsome
    · exact absurd hsome (by simp)
    · have hac : a = c := by simpa using hsome
      subst hac
      have hmem : a ∈ st.safes \ st.moves_made :=
        cellSort_subset (hc.symm ▸ List.mem_cons_self a rest)
      rw [Finset.mem_sdiff] at hmem
      exact hmem

/-- Witness for C9 at a state with one unmade safe cell. -/
theorem claim9_make_safe_move_witness :
    (make_safe_move ⟨1, 1, ∅, ∅, {(0, 0)}, [], 0⟩).1 = some (0, 0) ∧
    ((0, 0) ∈ ({(0, 0)} : Finset Cell) ∧ (0, 0) ∉ (∅ : Finset Cell)) ∧
    (make_safe_move ⟨1, 1, ∅, ∅, {(0, 0)}, [], 0⟩).2 = ⟨1, 1, ∅, ∅, {(0, 0)}, [], 0⟩ :=
  ⟨by decide,
   (claim9_make_safe_move ⟨1, 1, ∅, ∅, {(0, 0)}, [], 0⟩).2.1 (0, 0) (by decide),
   (claim9_make_safe_move ⟨1, 1, ∅, ∅, {(0, 0)}, [], 0⟩).2.2⟩

/-- C10 (amended: the returned cell is selected by a deterministic,
implementation-defined choice — Python's `set.pop()` — not uniformly at
random; `make_random_move` never consults a random source; see
`claim10_counterexample`).  The function returns a grid cell that is neither
in `moves_made` nor in `mines`, and `None` exactly when no such cell
exists. -/
theorem claim10_random_move (st : AIState) :
    (make_random_move st = none ↔ random_move_candidates st = ∅) ∧
    (∀ c, make_random_move st = some c →
      c.1 < st.height ∧ c.2 < st.width ∧ c ∉ st.moves_made ∧ c ∉ st.mines) := by
  constructor
  · rw [make_random_move_eq]
    split_ifs with h0
    · simp [Finset.card_eq_zero.mp h0]
    · rcases hc : cellSort (random_move_candidates st) with _ | ⟨a, rest⟩
      · exact absurd (cellSort_eq_nil.mp hc) fun he => h0 (by rw [he]; rfl)
      · refine iff_of_false (by simp) fun he => h0 (by rw [he]; rfl)
  · intro c hsome
    rw [make_random_move_eq] at hsome
    split_ifs at hsome with h0
    rcases hc : cellSort (random_move_candidates st) with _ | ⟨a, rest⟩ <;>
      rw [hc] at hsome
    · exact absurd hsome (by simp)
    · have hac : a = c := by simpa using hsome
      subst hac
      have hmem : a ∈ random_move_candidates st :=
        cellSort_subset (hc.symm ▸ List.mem_cons_self a rest)
      unfold random_move_candidates at hmem
      rw [Finset.mem_filter, Finset.mem_product] at hmem
      exact ⟨Finset.mem_range.mp hmem.1.1, Finset.mem_range.mp hmem.1.2,
        hmem.2.1, hmem.2.2⟩

/-- Witness for C10 on a fresh 1×2 engine. -/
theorem claim10_random_move_witness :
    make_random_move (initAI 1 2) = some (0, 0) ∧
    (((0, 0) : Cell).1 < (initAI 1 2).height ∧ ((0, 0) : Cell).2 < (initAI 1 2).width ∧
      ((0, 0) : Cell) ∉ (initAI 1 2).moves_made ∧ ((0, 0) : Cell) ∉ (initAI 1 2).mines) :=
  ⟨by decide, (claim10_random_move (initAI 1 2)).2 (0, 0) (by decide)⟩

/-- Counterexample to C10's "selected uniformly at random": on a fresh 1×2
engine both cells are candidates, yet `make_random_move` — a deterministic
function of the state; the source never calls into the `random` module in
this method, and `set.pop()` is an arbitrary fixed choice — returns the one
fixed cell on every call, so the other candidate is never selected. -/
theorem claim10_counterexample :
    random_move_candidates (initAI 1 2) = {(0, 0), (0, 1)} ∧
    (0, 1) ∈ random_move_candidates (initAI 1 2) ∧
    make_random_move (initAI 1 2) = some (0, 0) ∧
    ((0, 0) : Cell) ≠ (0, 1) :=
  ⟨by decide, by decide, by decide, by decide⟩

end Minesweeper
